import Mathlib

/-!
Verification development for `clinvarbitration/clinvar_by_codon.py`.

The script re-indexes ClinVar pathogenic variant annotations by protein
codon.  Its core logic is:

* `pull_vep_from_header` — find the `INFO`/`CSQ` header element, take the
  text after the literal `"Format: "` marker in its description, strip a
  trailing quote, split on `|`, lower-case every field name;
* `variant_consequences` — split a variant's CSQ string on `,`, zip each
  token's `|`-separated values strictly against the header names into a
  dict, and keep only dicts whose `consequence` value contains the
  substring `missense_variant`;
* the `main` aggregation loop — for every retained dict, insert the token
  `"{allele_id}:{gold_stars}"` into a deduplicating set stored under the
  key `"{ensp}:{protein_position}"` in an insertion-ordered map
  (`defaultdict(set)`), then emit each entry as the key together with the
  `+`-join of its set.

Everything below is a shallow embedding of that code.  String splitting,
substring tests, lower-casing and right-stripping are re-implemented by
structural (or fuel-bounded structural) recursion over `List Char`, with
Python's semantics, so that the kernel can evaluate them on concrete
inputs.  The Python `set` stored under each key is modelled as a
duplicate-free list in insertion order (Python's set iteration order is
unspecified; claims about the set content are stated via `List.toFinset`).
-/

/-- Python `sep in s` style prefix test lifted to a substring test:
`containsAux pat hay` is true iff `pat` occurs as a contiguous substring
of `hay`. -/
def containsAux (pat : List Char) : List Char → Bool
  | [] => pat.isEmpty
  | c :: cs => pat.isPrefixOf (c :: cs) || containsAux pat cs

/-- Python's `pat in s` substring containment on strings. -/
def strContains (hay pat : String) : Bool :=
  containsAux pat.data hay.data

/-- Fuel-bounded worker for Python's `str.split(sep)` with a non-empty
separator: left-to-right, non-overlapping matches; the fuel is an upper
bound on the length of the remaining text, so with fuel `hay.length` the
exhaustion branch is never taken. -/
def splitLAux (sep : List Char) : Nat → List Char → List (List Char)
  | _, [] => [[]]
  | 0, hay => [hay]
  | fuel + 1, c :: cs =>
    if sep ≠ [] ∧ sep.isPrefixOf (c :: cs) then
      [] :: splitLAux sep fuel (List.drop sep.length (c :: cs))
    else
      match splitLAux sep fuel cs with
      | [] => [[c]]
      | h :: t => (c :: h) :: t

/-- Python's `s.split(sep)` for a non-empty separator `sep`
(the Python call raises for an empty separator; that case is unused). -/
def pySplit (s sep : String) : List String :=
  (splitLAux sep.data s.data.length s.data).map (fun l => String.mk l)

/-- Python's `s.rstrip(ch)` for a single character: drop every trailing
occurrence of `ch`. -/
def rstripChar (s : String) (ch : Char) : String :=
  String.mk ((s.data.reverse.dropWhile (fun c => c = ch)).reverse)

/-- Python's `s.lower()` (ASCII case folding, which covers VEP field
names). -/
def lowerStr (s : String) : String :=
  String.mk (s.data.map Char.toLower)

/-- One element of the VCF header, as exposed by `vcf.header_iter()`:
a category tag (`HeaderType`), an identifier (`ID`) and a free-text
description (`Description`). -/
structure HeaderElement where
  headerType : String
  id : String
  description : String
deriving DecidableEq, Repr

/-- The error raised by `pull_vep_from_header` when no `INFO`/`CSQ`
element exists (the source raises `IndexError('CSQ element not found in
header')`; the spec names this condition `SchemaNotFound`). -/
inductive HeaderError where
  | schemaNotFound
deriving DecidableEq, Repr

/-- The schema-extraction arithmetic applied to the `Description` text of
the CSQ header element:
`element['Description'].split('Format: ')[-1].rstrip('"').split('|')`,
each piece lower-cased. -/
def schemaOfDescription (desc : String) : List String :=
  (pySplit (rstripChar ((pySplit desc "Format: ").getLastD "") '"') "|").map lowerStr

/-- `pull_vep_from_header`: scan the header elements in order and return
the schema of the first element with `HeaderType = 'INFO'` and
`ID = 'CSQ'`; if none exists, fail. -/
def pull_vep_from_header : List HeaderElement → Except HeaderError (List String)
  | [] => .error .schemaNotFound
  | e :: rest =>
    if e.headerType = "INFO" ∧ e.id = "CSQ" then
      .ok (schemaOfDescription e.description)
    else
      pull_vep_from_header rest

/-- Errors that abort `variant_consequences`:
`malformedConsequence` is the `ValueError` from `zip(..., strict=True)`
when a token's pipe-field count differs from the schema length (the
spec's `MalformedConsequence`); `keyError k` is the Python `KeyError`
from looking up a field name `k` that the decoded dict does not hold. -/
inductive CsqError where
  | malformedConsequence
  | keyError (k : String)
deriving DecidableEq, Repr

/-- A decoded consequence record: the `dict` built by
`dict(zip(csq_header, values, strict=True))`, as its ordered binding
list. -/
abbrev CsqDict := List (String × String)

/-- `dict(zip(names, values, strict=True))` as a binding list: fails with
`malformedConsequence` exactly when the two lists have different
lengths. -/
def dictZip : List String → List String → Except CsqError CsqDict
  | [], [] => .ok []
  | n :: ns, v :: vs =>
    match dictZip ns vs with
    | .ok d => .ok ((n, v) :: d)
    | .error e => .error e
  | _, _ => .error .malformedConsequence

/-- Python dict lookup `d[k]` on a binding list: a later binding of the
same key overwrites an earlier one, so look the key up from the right. -/
def dictGet (d : CsqDict) (k : String) : Option String :=
  List.lookup k d.reverse

/-- Decode one comma-separated CSQ token against the header schema:
`dict(zip(csq_header, csq.split('|'), strict=True))`. -/
def decodeToken (hdr : List String) (tok : String) : Except CsqError CsqDict :=
  dictZip hdr (pySplit tok "|")

/-- The filter test `'missense_variant' in csq_dict['consequence']`:
fails with a `KeyError` when the dict has no `consequence` binding. -/
def keepCsq (d : CsqDict) : Except CsqError Bool :=
  match dictGet d "consequence" with
  | none => .error (.keyError "consequence")
  | some c => .ok (strContains c "missense_variant")

/-- The loop body of `variant_consequences` over the comma-separated
tokens, in order: decode each token, keep it when the filter test
passes, abort on the first error. -/
def collectCsq (hdr : List String) : List String → Except CsqError (List CsqDict)
  | [] => .ok []
  | tok :: rest =>
    match decodeToken hdr tok with
    | .error e => .error e
    | .ok d =>
      match keepCsq d with
      | .error e => .error e
      | .ok keep =>
        match collectCsq hdr rest with
        | .error e => .error e
        | .ok l => .ok (if keep then d :: l else l)

/-- `variant_consequences` applied to a variant's CSQ string:
split on commas, decode and filter every token. -/
def variant_consequences (csqStr : String) (hdr : List String) :
    Except CsqError (List CsqDict) :=
  collectCsq hdr (pySplit csqStr ",")

/-- One input variant, with the INFO fields the script reads:
`allele_id`, `gold_stars` (integers) and the raw `CSQ` annotation
string. -/
structure Variant where
  allele_id : Int
  gold_stars : Int
  csq : String
deriving DecidableEq, Repr

/-- The ClinicalKey token `f'{clinvar_allele}:{clinvar_stars}'`. -/
def clinvarKey (v : Variant) : String :=
  toString v.allele_id ++ ":" ++ toString v.gold_stars

/-- The aggregation map `clinvar_dict : defaultdict(set)`.  Entries are
kept in key-creation order (Python dicts iterate in insertion order);
the set stored under a key is modelled as its duplicate-free list of
elements. -/
abbrev AggMap := List (String × List String)

/-- Python `set.add`: a no-op when the element is already present. -/
def setAdd (s : List String) (x : String) : List String :=
  if x ∈ s then s else s ++ [x]

/-- `clinvar_dict[pk].add(ck)` on the insertion-ordered map: update the
entry for `pk` in place, or append a fresh entry at the end when `pk`
is a new key (the `defaultdict` behaviour). -/
def aggInsert (m : AggMap) (pk ck : String) : AggMap :=
  match m with
  | [] => [(pk, setAdd [] ck)]
  | (k, s) :: rest =>
    if k = pk then (k, setAdd s ck) :: rest
    else (k, s) :: aggInsert rest pk ck

/-- Read the set stored under a key (empty when the key is absent). -/
def aggLookup : AggMap → String → List String
  | [], _ => []
  | (k, s) :: rest, q => if k = q then s else aggLookup rest q

/-- Fold a stream of (ProteinKey, ClinicalKey) pairs into the map —
the essence of the aggregation loop in `main`. -/
def aggregatePairs (ps : List (String × String)) : AggMap :=
  ps.foldl (fun m p => aggInsert m p.1 p.2) []

/-- The per-variant body of the loop in `main`: derive the ClinicalKey
once, then insert it under `f"{csq_dict['ensp']}:{csq_dict['protein_position']}"`
for every retained consequence dict (a missing field raises
`KeyError`). -/
def processVariant (hdr : List String) (m : AggMap) (v : Variant) :
    Except CsqError AggMap :=
  match variant_consequences v.csq hdr with
  | .error e => .error e
  | .ok csqs =>
    csqs.foldlM
      (fun m d =>
        match dictGet d "ensp" with
        | none => .error (.keyError "ensp")
        | some ensp =>
          match dictGet d "protein_position" with
          | none => .error (.keyError "protein_position")
          | some pp => .ok (aggInsert m (ensp ++ ":" ++ pp) (clinvarKey v)))
      m

/-- The aggregation phase of `main`: fold every variant of the stream
into the initially empty map. -/
def mainAgg (hdr : List String) (vs : List Variant) : Except CsqError AggMap :=
  vs.foldlM (processVariant hdr) []

/-- Python `'+'.join(tokens)`. -/
def joinPlus : List String → String
  | [] => ""
  | [s] => s
  | s :: rest => s ++ "+" ++ joinPlus rest

/-- The finalization loop of `main`: emit, in map order, one record per
entry, pairing the ProteinKey with the `+`-join of its set (the join
enumerates the modelled set in its insertion order; Python's set
iteration order is unspecified). -/
def finalizeAgg (m : AggMap) : List (String × String) :=
  m.map (fun p => (p.1, joinPlus p.2))

deriving instance DecidableEq for Except

/-! ### Lemmas about the strict zip and dict lookup -/

theorem dictZip_ok_length {ns vs : List String} {d : CsqDict}
    (h : dictZip ns vs = .ok d) : vs.length = ns.length := by
  induction ns generalizing vs d with
  | nil => cases vs with
    | nil => rfl
    | cons v vs => simp [dictZip] at h
  | cons n ns ih =>
    cases vs with
    | nil => simp [dictZip] at h
    | cons v vs =>
      simp only [dictZip] at h
      cases h2 : dictZip ns vs with
      | ok d2 => simpa [List.length_cons] using ih h2
      | error e => simp only [h2] at h; exact absurd h (by simp)

theorem dictZip_error_eq {ns vs : List String} {e : CsqError}
    (h : dictZip ns vs = .error e) : e = .malformedConsequence := by
  induction ns generalizing vs e with
  | nil => cases vs with
    | nil => simp [dictZip] at h
    | cons v vs => simp [dictZip] at h; exact h.symm
  | cons n ns ih =>
    cases vs with
    | nil => simp [dictZip] at h; exact h.symm
    | cons v vs =>
      simp only [dictZip] at h
      cases h2 : dictZip ns vs with
      | ok d2 => simp only [h2] at h; exact absurd h (by simp)
      | error e2 =>
        simp only [h2, Except.error.injEq] at h
        exact h ▸ ih h2

theorem dictZip_keys {ns vs : List String} {d : CsqDict}
    (h : dictZip ns vs = .ok d) : d.map Prod.fst = ns := by
  induction ns generalizing vs d with
  | nil => cases vs with
    | nil => simp [dictZip] at h; simp [← h]
    | cons v vs => simp [dictZip] at h
  | cons n ns ih =>
    cases vs with
    | nil => simp [dictZip] at h
    | cons v vs =>
      simp only [dictZip] at h
      cases h2 : dictZip ns vs with
      | ok d2 =>
        simp only [h2, Except.ok.injEq] at h
        subst h
        simp [ih h2]
      | error e => simp only [h2] at h; exact absurd h (by simp)

theorem lookup_isSome_of_mem_keys {l : List (String × String)} {k : String}
    (h : k ∈ l.map Prod.fst) : ∃ v, List.lookup k l = some v := by
  induction l with
  | nil => simp at h
  | cons p rest ih =>
    by_cases hk : k = p.1
    · exact ⟨p.2, by simp [List.lookup, hk]⟩
    · have hmem : k ∈ rest.map Prod.fst := by simpa [hk] using h
      obtain ⟨v, hv⟩ := ih hmem
      exact ⟨v, by simp [List.lookup, beq_eq_false_iff_ne.mpr hk, hv]⟩

theorem dictGet_isSome_of_mem_keys {d : CsqDict} {k : String}
    (h : k ∈ d.map Prod.fst) : ∃ v, dictGet d k = some v := by
  apply lookup_isSome_of_mem_keys
  simpa [List.map_reverse] using h

/-! ### Lemmas about the token-collection loop -/

theorem collect_ok_mem_keep {hdr : List String} {toks : List String}
    {l : List CsqDict} {d : CsqDict}
    (hok : collectCsq hdr toks = .ok l) (hmem : d ∈ l) :
    keepCsq d = .ok true := by
  induction toks generalizing l with
  | nil =>
    simp only [collectCsq, Except.ok.injEq] at hok
    subst hok
    simp at hmem
  | cons tok rest ih =>
    simp only [collectCsq] at hok
    cases h1 : decodeToken hdr tok with
    | error e => simp only [h1] at hok; exact absurd hok (by simp)
    | ok d1 =>
      simp only [h1] at hok
      cases h2 : keepCsq d1 with
      | error e => simp only [h2] at hok; exact absurd hok (by simp)
      | ok keep =>
        simp only [h2] at hok
        cases h3 : collectCsq hdr rest with
        | error e => simp only [h3] at hok; exact absurd hok (by simp)
        | ok l3 =>
          simp only [h3, Except.ok.injEq] at hok
          subst hok
          cases keep with
          | true =>
            simp only [if_true] at hmem
            rcases List.mem_cons.mp hmem with rfl | hmem3
            · exact h2
            · exact ih h3 hmem3
          | false =>
            simp only [Bool.false_eq_true, if_false] at hmem
            exact ih h3 hmem

theorem collect_ok_keep_mem {hdr : List String} {toks : List String}
    {l : List CsqDict} {tok : String} {d : CsqDict}
    (hok : collectCsq hdr toks = .ok l) (htok : tok ∈ toks)
    (hd : decodeToken hdr tok = .ok d) (hkeep : keepCsq d = .ok true) :
    d ∈ l := by
  induction toks generalizing l with
  | nil => simp at htok
  | cons t rest ih =>
    simp only [collectCsq] at hok
    cases h1 : decodeToken hdr t with
    | error e => simp only [h1] at hok; exact absurd hok (by simp)
    | ok d1 =>
      simp only [h1] at hok
      cases h2 : keepCsq d1 with
      | error e => simp only [h2] at hok; exact absurd hok (by simp)
      | ok keep =>
        simp only [h2] at hok
        cases h3 : collectCsq hdr rest with
        | error e => simp only [h3] at hok; exact absurd hok (by simp)
        | ok l3 =>
          simp only [h3, Except.ok.injEq] at hok
          subst hok
          rcases List.mem_cons.mp htok with rfl | htok3
          · rw [hd] at h1
            injection h1 with h1
            subst h1
            rw [hkeep] at h2
            injection h2 with h2
            rw [← h2]
            simp
          · have hmem := ih h3 htok3
            cases keep <;> simp [hmem]

theorem collect_ok_decode {hdr : List String} {toks : List String}
    {l : List CsqDict} {tok : String}
    (hok : collectCsq hdr toks = .ok l) (htok : tok ∈ toks) :
    ∃ d, decodeToken hdr tok = .ok d := by
  induction toks generalizing l with
  | nil => simp at htok
  | cons t rest ih =>
    simp only [collectCsq] at hok
    cases h1 : decodeToken hdr t with
    | error e => simp only [h1] at hok; exact absurd hok (by simp)
    | ok d1 =>
      simp only [h1] at hok
      cases h2 : keepCsq d1 with
      | error e => simp only [h2] at hok; exact absurd hok (by simp)
      | ok keep =>
        simp only [h2] at hok
        cases h3 : collectCsq hdr rest with
        | error e => simp only [h3] at hok; exact absurd hok (by simp)
        | ok l3 =>
          rcases List.mem_cons.mp htok with rfl | htok3
          · exact ⟨d1, h1⟩
          · exact ih h3 htok3

theorem collect_ok_or_malformed {hdr : List String}
    (hcons : "consequence" ∈ hdr) (toks : List String) :
    (∃ l, collectCsq hdr toks = .ok l) ∨
      collectCsq hdr toks = .error .malformedConsequence := by
  induction toks with
  | nil => exact .inl ⟨[], rfl⟩
  | cons tok rest ih =>
    cases h1 : decodeToken hdr tok with
    | error e =>
      right
      have he : e = .malformedConsequence := dictZip_error_eq h1
      subst he
      simp [collectCsq, h1]
    | ok d =>
      have hkeys : "consequence" ∈ d.map Prod.fst := by
        rw [dictZip_keys h1]; exact hcons
      obtain ⟨c, hc⟩ := dictGet_isSome_of_mem_keys hkeys
      rcases ih with ⟨l, hl⟩ | herr
      · exact .inl ⟨if strContains c "missense_variant" then d :: l else l,
          by simp [collectCsq, h1, keepCsq, hc, hl]⟩
      · right
        simp [collectCsq, h1, keepCsq, hc, herr]

/-! ### Lemmas about the aggregation map -/

theorem setAdd_mem (s : List String) (x : String) : x ∈ setAdd s x := by
  by_cases h : x ∈ s <;> simp [setAdd, h]

theorem setAdd_of_mem {s : List String} {x : String} (h : x ∈ s) :
    setAdd s x = s := by
  simp [setAdd, h]

theorem setAdd_idem (s : List String) (x : String) :
    setAdd (setAdd s x) x = setAdd s x :=
  setAdd_of_mem (setAdd_mem s x)

theorem setAdd_nodup {s : List String} (h : s.Nodup) (x : String) :
    (setAdd s x).Nodup := by
  by_cases hx : x ∈ s
  · simpa [setAdd, hx] using h
  · rw [setAdd, if_neg hx]
    exact List.Nodup.append h (List.nodup_singleton x)
      (fun a ha hb => hx (List.mem_singleton.mp hb ▸ ha))

theorem setAdd_toFinset (s : List String) (x : String) :
    (setAdd s x).toFinset = insert x s.toFinset := by
  by_cases hx : x ∈ s
  · rw [setAdd_of_mem hx, Finset.insert_eq_self.mpr (List.mem_toFinset.mpr hx)]
  · simp [setAdd, hx, List.toFinset_append, Finset.union_comm, Finset.insert_eq]

theorem aggLookup_aggInsert (m : AggMap) (pk ck q : String) :
    aggLookup (aggInsert m pk ck) q =
      if q = pk then setAdd (aggLookup m q) ck else aggLookup m q := by
  induction m with
  | nil =>
    simp only [aggInsert, aggLookup]
    by_cases h : q = pk
    · subst h; simp
    · rw [if_neg (fun heq : pk = q => h heq.symm), if_neg h]
  | cons p rest ih =>
    obtain ⟨k, s⟩ := p
    simp only [aggInsert]
    by_cases hk : k = pk
    · subst hk
      simp only [if_pos rfl, aggLookup]
      by_cases hq : q = k
      · subst hq; simp
      · rw [if_neg (fun heq : k = q => hq heq.symm), if_neg hq,
          if_neg (fun heq : k = q => hq heq.symm)]
    · rw [if_neg hk]
      simp only [aggLookup]
      by_cases hq : k = q
      · subst hq
        simp [hk]
      · rw [if_neg hq, if_neg hq, ih]

theorem aggInsert_vals_nodup {m : AggMap}
    (h : ∀ p ∈ m, (Prod.snd p).Nodup) (pk ck : String) :
    ∀ p ∈ aggInsert m pk ck, (Prod.snd p).Nodup := by
  induction m with
  | nil =>
    intro p hp
    simp only [aggInsert, List.mem_singleton] at hp
    subst hp
    exact setAdd_nodup List.nodup_nil ck
  | cons q rest ih =>
    obtain ⟨k, s⟩ := q
    intro p hp
    by_cases hk : k = pk
    · simp only [aggInsert, hk, if_true] at hp
      rcases List.mem_cons.mp hp with rfl | hp3
      · exact setAdd_nodup (h (k, s) (by simp [hk])) ck
      · exact h p (List.mem_cons_of_mem _ hp3)
    · simp only [aggInsert, hk, if_false] at hp
      rcases List.mem_cons.mp hp with rfl | hp3
      · exact h (k, s) (by simp)
      · exact ih (fun p hp => h p (List.mem_cons_of_mem _ hp)) p hp3

theorem aggLookup_mem {m : AggMap} {q : String} :
    aggLookup m q = [] ∨ (q, aggLookup m q) ∈ m := by
  induction m with
  | nil => exact .inl rfl
  | cons p rest ih =>
    obtain ⟨k, s⟩ := p
    by_cases hk : k = q
    · subst hk
      exact .inr (by simp [aggLookup])
    · rcases ih with h | h
      · exact .inl (by simpa [aggLookup, hk] using h)
      · refine .inr (List.mem_cons_of_mem _ ?_)
        simpa [aggLookup, hk] using h

theorem aggregatePairs_vals_nodup (ps : List (String × String)) :
    ∀ p ∈ aggregatePairs ps, (Prod.snd p).Nodup := by
  suffices hgen : ∀ (m : AggMap), (∀ p ∈ m, (Prod.snd p).Nodup) →
      ∀ p ∈ ps.foldl (fun m p => aggInsert m p.1 p.2) m, (Prod.snd p).Nodup by
    exact hgen [] (by simp)
  induction ps with
  | nil => intro m hm; simpa using hm
  | cons q rest ih =>
    intro m hm
    simpa using ih (aggInsert m q.1 q.2) (aggInsert_vals_nodup hm q.1 q.2)

theorem aggLookup_foldl (ps : List (String × String)) (m : AggMap) (q : String) :
    (aggLookup (ps.foldl (fun m p => aggInsert m p.1 p.2) m) q).toFinset =
      (aggLookup m q).toFinset ∪
        (ps.filterMap (fun p => if p.1 = q then some p.2 else none)).toFinset := by
  induction ps generalizing m with
  | nil => simp
  | cons p rest ih =>
    simp only [List.foldl_cons]
    rw [ih]
    by_cases hp : p.1 = q
    · have hq : q = p.1 := hp.symm
      rw [aggLookup_aggInsert, if_pos hq, setAdd_toFinset]
      simp only [List.filterMap_cons, hp, if_pos]
      rw [List.toFinset_cons, Finset.insert_union, Finset.union_insert]
    · have hq : ¬(q = p.1) := fun heq => hp heq.symm
      rw [aggLookup_aggInsert, if_neg hq]
      simp [List.filterMap_cons, hp]

/-- The order in which new keys are first created when a stream of keys is
fed into the map: first occurrences, in stream order, of the keys not
already in `seen`. -/
def newKeys (seen : List String) : List String → List String
  | [] => []
  | k :: ks => if k ∈ seen then newKeys seen ks else k :: newKeys (k :: seen) ks

theorem newKeys_congr {s₁ s₂ : List String}
    (h : ∀ x, x ∈ s₁ ↔ x ∈ s₂) (l : List String) :
    newKeys s₁ l = newKeys s₂ l := by
  induction l generalizing s₁ s₂ with
  | nil => rfl
  | cons k ks ih =>
    simp only [newKeys]
    by_cases hk : k ∈ s₁
    · rw [if_pos hk, if_pos ((h k).mp hk), ih h]
    · rw [if_neg hk, if_neg (fun hk2 => hk ((h k).mpr hk2))]
      refine congrArg _ (ih ?_)
      intro x
      simp [h x]

theorem aggInsert_keys (m : AggMap) (pk ck : String) :
    (aggInsert m pk ck).map Prod.fst =
      if pk ∈ m.map Prod.fst then m.map Prod.fst
      else m.map Prod.fst ++ [pk] := by
  induction m with
  | nil => simp [aggInsert]
  | cons p rest ih =>
    obtain ⟨k, s⟩ := p
    simp only [aggInsert]
    by_cases hk : k = pk
    · subst hk
      simp
    · rw [if_neg hk]
      have hne : ¬(pk = k) := fun heq => hk heq.symm
      simp only [List.map_cons, ih, List.mem_cons, hne, false_or]
      by_cases hmem : pk ∈ rest.map Prod.fst
      · simp [hmem]
      · simp [hmem]

theorem foldl_agg_keys (ps : List (String × String)) (m : AggMap) :
    (ps.foldl (fun m p => aggInsert m p.1 p.2) m).map Prod.fst =
      m.map Prod.fst ++ newKeys (m.map Prod.fst) (ps.map Prod.fst) := by
  induction ps generalizing m with
  | nil => simp [newKeys]
  | cons p rest ih =>
    simp only [List.foldl_cons, List.map_cons, newKeys]
    rw [ih]
    by_cases hmem : p.1 ∈ m.map Prod.fst
    · rw [if_pos hmem, aggInsert_keys, if_pos hmem]
    · rw [if_neg hmem, aggInsert_keys, if_neg hmem]
      rw [@newKeys_congr (m.map Prod.fst ++ [p.1]) (p.1 :: m.map Prod.fst)
        (fun x => by simp [or_comm]) (rest.map Prod.fst)]
      simp [List.append_assoc]

theorem aggInsert_idem (m : AggMap) (pk ck : String) :
    aggInsert (aggInsert m pk ck) pk ck = aggInsert m pk ck := by
  induction m with
  | nil => simp [aggInsert, setAdd_idem]
  | cons p rest ih =>
    obtain ⟨k, s⟩ := p
    by_cases hk : k = pk
    · subst hk; simp [aggInsert, setAdd_idem]
    · simp [aggInsert, hk, ih]

/-! ### The claims -/

/-- Claim C1, end-to-end scenario: with the schema
`["allele", "consequence", "ensp", "protein_position"]` and the two
variants A (`allele_id=10`, `gold_stars=2`, one missense CSQ entry at
`ENSP1:45`) and B (`allele_id=11`, `gold_stars=1`, a missense entry at
`ENSP1:45` plus a `stop_gained` entry at `ENSP2:9`), the finalized
aggregation map holds exactly one entry, keyed `"ENSP1:45"`, whose set
is the two tokens `"10:2"` and `"11:1"` (joined with `"+"` on output),
and no entry for `"ENSP2:9"`. -/
theorem c1_end_to_end :
    mainAgg ["allele", "consequence", "ensp", "protein_position"]
        [⟨10, 2, "x|missense_variant|ENSP1|45"⟩,
         ⟨11, 1, "x|missense_variant|ENSP1|45,x|stop_gained|ENSP2|9"⟩]
      = .ok [("ENSP1:45", ["10:2", "11:1"])]
    ∧ finalizeAgg [("ENSP1:45", ["10:2", "11:1"])]
      = [("ENSP1:45", "10:2+11:1")] := by decide

/-- Claim C2, filter correctness: whenever `variant_consequences`
succeeds, a consequence dict decoded from one of the variant's
comma-separated tokens is in the returned list if and only if its
`consequence` field contains the substring `"missense_variant"` (so
`"synonymous_variant"` is never retained while `"missense_variant"` and
`"missense_variant&splice_region_variant"` are). -/
theorem c2_missense_filter (hdr : List String) (csqStr : String)
    (l : List CsqDict) (hok : variant_consequences csqStr hdr = .ok l)
    (tok : String) (htok : tok ∈ pySplit csqStr ",")
    (d : CsqDict) (hd : decodeToken hdr tok = .ok d)
    (c : String) (hc : dictGet d "consequence" = some c) :
    d ∈ l ↔ strContains c "missense_variant" = true := by
  constructor
  · intro hmem
    have hk := collect_ok_mem_keep hok hmem
    simp only [keepCsq, hc, Except.ok.injEq] at hk
    exact hk
  · intro hcont
    exact collect_ok_keep_mem hok htok hd (by simp [keepCsq, hc, hcont])

/-- Witness for C2 at a concrete input: the single token
`"missense_variant&splice_region_variant"` under the one-name schema
`["consequence"]` decodes, and the retained list contains it iff the
substring test passes. -/
theorem c2_missense_filter_witness :
    [("consequence", "missense_variant&splice_region_variant")]
        ∈ [[("consequence", "missense_variant&splice_region_variant")]]
      ↔ strContains "missense_variant&splice_region_variant" "missense_variant"
          = true :=
  c2_missense_filter ["consequence"] "missense_variant&splice_region_variant"
    [[("consequence", "missense_variant&splice_region_variant")]] (by decide)
    "missense_variant&splice_region_variant" (by decide)
    [("consequence", "missense_variant&splice_region_variant")] (by decide)
    "missense_variant&splice_region_variant" (by decide)

/-- Counterexample to claim C3 as stated for every schema: with the
schema `["allele"]` (which does not name a `consequence` field) and the
CSQ string `"a,b|c"`, the token `"b|c"` has 2 pipe-delimited values
against 1 schema name, yet decoding fails with the `KeyError` raised at
the first token, not with `MalformedConsequence`. -/
theorem c3_counterexample :
    ("b|c" ∈ pySplit "a,b|c" ","
        ∧ (pySplit "b|c" "|").length ≠ (["allele"] : List String).length)
    ∧ variant_consequences "a,b|c" ["allele"] = .error (.keyError "consequence")
    ∧ variant_consequences "a,b|c" ["allele"]
        ≠ .error .malformedConsequence := by decide

/-- Claim C3 as amended, mismatch rejection: for every schema that
contains the field name `"consequence"` (in particular the 4-name VEP
schema), if any comma-separated token of the CSQ string has a number of
pipe-delimited values different from the number of schema names, then
decoding the variant fails with `MalformedConsequence` — no truncation
or padding. -/
theorem c3_mismatch_rejection (hdr : List String)
    (hcons : "consequence" ∈ hdr) (csqStr tok : String)
    (htok : tok ∈ pySplit csqStr ",")
    (hlen : (pySplit tok "|").length ≠ hdr.length) :
    variant_consequences csqStr hdr = .error .malformedConsequence := by
  rcases collect_ok_or_malformed hcons (pySplit csqStr ",") with ⟨l, hok⟩ | herr
  · exfalso
    obtain ⟨d, hd⟩ := collect_ok_decode hok htok
    simp only [decodeToken] at hd
    exact hlen (dictZip_ok_length hd)
  · exact herr

/-- Witness for the amended C3: a 3-value token under the 4-name schema
makes decoding fail with `MalformedConsequence`. -/
theorem c3_mismatch_rejection_witness :
    variant_consequences "a|missense_variant|ENSP1"
        ["allele", "consequence", "ensp", "protein_position"]
      = .error .malformedConsequence :=
  c3_mismatch_rejection ["allele", "consequence", "ensp", "protein_position"]
    (by decide) "a|missense_variant|ENSP1" "a|missense_variant|ENSP1"
    (by decide) (by decide)

/-- Claim C4, SchemaNotFound: if no header element has category `INFO`
and identifier `CSQ`, the header schema extractor fails with the
`SchemaNotFound` error instead of returning a schema. -/
theorem c4_schema_not_found (hs : List HeaderElement)
    (h : ∀ e ∈ hs, ¬(e.headerType = "INFO" ∧ e.id = "CSQ")) :
    pull_vep_from_header hs = .error .schemaNotFound := by
  induction hs with
  | nil => rfl
  | cons e rest ih =>
    simp only [pull_vep_from_header]
    rw [if_neg (h e (List.mem_cons_self e rest))]
    exact ih (fun e2 he2 => h e2 (List.mem_cons_of_mem _ he2))

/-- Witness for C4: a header with a `FILTER`/`CSQ` element and an
`INFO`/`AC` element but no `INFO`/`CSQ` element fails. -/
theorem c4_schema_not_found_witness :
    pull_vep_from_header
        [⟨"FILTER", "CSQ", "x"⟩, ⟨"INFO", "AC", "y"⟩]
      = .error .schemaNotFound :=
  c4_schema_not_found [⟨"FILTER", "CSQ", "x"⟩, ⟨"INFO", "AC", "y"⟩]
    (by decide)

/-- Claim C5, header extraction: on an `INFO`/`CSQ` element whose
description is the given VEP format line, the extractor returns exactly
`["allele", "consequence", "ensp", "protein_position"]` — the substring
after `"Format: "`, with the trailing quote stripped, split on `|` and
lower-cased. -/
theorem c5_header_extraction :
    pull_vep_from_header
        [⟨"INFO", "CSQ",
          "Consequence annotations from Ensembl VEP. Format: Allele|Consequence|ENSP|Protein_position\""⟩]
      = .ok ["allele", "consequence", "ensp", "protein_position"]
    ∧ schemaOfDescription
        "Consequence annotations from Ensembl VEP. Format: Allele|Consequence|ENSP|Protein_position\""
      = ["allele", "consequence", "ensp", "protein_position"] := by decide

/-- Claim C6, idempotent insertion: inserting the same ClinicalKey token
twice under the same ProteinKey yields the same map as inserting it
once, and consequently no token ever appears more than once in the set
stored under a key of the aggregated map. -/
theorem c6_idempotent_insertion :
    (∀ (m : AggMap) (pk ck : String),
        aggInsert (aggInsert m pk ck) pk ck = aggInsert m pk ck)
    ∧ ∀ (ps : List (String × String)) (pk : String),
        (aggLookup (aggregatePairs ps) pk).Nodup := by
  refine ⟨aggInsert_idem, fun ps pk => ?_⟩
  rcases @aggLookup_mem (aggregatePairs ps) pk with h | h
  · rw [h]; exact List.nodup_nil
  · exact aggregatePairs_vals_nodup ps (pk, aggLookup (aggregatePairs ps) pk) h

/-- Claim C7, order-independence of aggregation: folding any permutation
of a sequence of (ProteinKey, ClinicalKey) pairs into the empty map
yields the same mapping from key to set of tokens. -/
theorem c7_order_independence (l₁ l₂ : List (String × String))
    (hperm : l₁.Perm l₂) (q : String) :
    (aggLookup (aggregatePairs l₁) q).toFinset
      = (aggLookup (aggregatePairs l₂) q).toFinset := by
  rw [aggregatePairs, aggregatePairs, aggLookup_foldl, aggLookup_foldl]
  have hfm := hperm.filterMap (fun p => if p.1 = q then some p.2 else none)
  congr 1
  ext x
  simp [List.mem_toFinset, hfm.mem_iff]

/-- Witness for C7: swapping two concrete pairs leaves the set stored
under `"a"` unchanged. -/
theorem c7_order_independence_witness :
    (aggLookup (aggregatePairs [("a", "1"), ("b", "2")]) "a").toFinset
      = (aggLookup (aggregatePairs [("b", "2"), ("a", "1")]) "a").toFinset :=
  c7_order_independence [("a", "1"), ("b", "2")] [("b", "2"), ("a", "1")]
    (List.Perm.swap ("b", "2") ("a", "1") []) "a"

/-- Claim C8, positional decoding: the token
`"A|missense_variant|ENSP1|45"` decoded against the 4-name schema pairs
each pipe-delimited value with the schema name at the same position, so
`ensp` maps to `"ENSP1"` and `protein_position` maps to `"45"`. -/
theorem c8_positional_decoding :
    decodeToken ["allele", "consequence", "ensp", "protein_position"]
        "A|missense_variant|ENSP1|45"
      = .ok [("allele", "A"), ("consequence", "missense_variant"),
             ("ensp", "ENSP1"), ("protein_position", "45")]
    ∧ dictGet [("allele", "A"), ("consequence", "missense_variant"),
             ("ensp", "ENSP1"), ("protein_position", "45")] "ensp"
        = some "ENSP1"
    ∧ dictGet [("allele", "A"), ("consequence", "missense_variant"),
             ("ensp", "ENSP1"), ("protein_position", "45")] "protein_position"
        = some "45" := by decide

/-- Claim C9, finalization order and join: the finalized records list the
ProteinKeys in the order they were first created while folding the input
pairs, and each entry of the aggregated map is emitted as its key paired
with the `+`-join of its stored set. -/
theorem c9_finalize_order (ps : List (String × String)) :
    (finalizeAgg (aggregatePairs ps)).map Prod.fst
        = newKeys [] (ps.map Prod.fst)
    ∧ ∀ p ∈ aggregatePairs ps,
        (p.1, joinPlus p.2) ∈ finalizeAgg (aggregatePairs ps) := by
  constructor
  · have h1 : (finalizeAgg (aggregatePairs ps)).map Prod.fst
        = (aggregatePairs ps).map Prod.fst := by
      simp [finalizeAgg, List.map_map, Function.comp]
    rw [h1, aggregatePairs, foldl_agg_keys]
    simp
  · intro p hp
    exact List.mem_map_of_mem (fun p => (p.1, joinPlus p.2)) hp

/-- Witness for C9: with the concrete pair stream
`[("k","a"), ("j","b"), ("k","a")]`, the output keys are in
first-creation order and the `"k"` entry is emitted joined. -/
theorem c9_finalize_order_witness :
    (finalizeAgg (aggregatePairs [("k", "a"), ("j", "b"), ("k", "a")])).map
          Prod.fst
        = newKeys [] ([("k", "a"), ("j", "b"), ("k", "a")].map Prod.fst)
    ∧ ("k", joinPlus ["a"])
        ∈ finalizeAgg (aggregatePairs [("k", "a"), ("j", "b"), ("k", "a")]) :=
  ⟨(c9_finalize_order [("k", "a"), ("j", "b"), ("k", "a")]).1,
    (c9_finalize_order [("k", "a"), ("j", "b"), ("k", "a")]).2
      ("k", ["a"]) (by decide)⟩

/-- Counterexample to claim C10 as stated for every schema: with the
schema `["allele"]` and the CSQ string `"a,x|stop_gained"`, the
non-missense token `"x|stop_gained"` has 2 pipe-delimited values
against 1 schema name, and decoding does abort — but with the
`KeyError` raised by the filter lookup at the *earlier* token `"a"`,
not with the `MalformedConsequence` decoding error: the mismatched
token's strict zip is never reached. -/
theorem c10_counterexample :
    ("x|stop_gained" ∈ pySplit "a,x|stop_gained" ","
        ∧ (pySplit "x|stop_gained" "|").length
            ≠ (["allele"] : List String).length)
    ∧ variant_consequences "a,x|stop_gained" ["allele"]
        = .error (.keyError "consequence")
    ∧ variant_consequences "a,x|stop_gained" ["allele"]
        ≠ .error .malformedConsequence := by decide

/-- Claim C10 as amended, strict decoding precedes filtering: whenever
any comma-separated token of the CSQ string has a pipe-field count
different from the schema length, `variant_consequences` aborts with an
error — the mismatched token is never silently filtered out — and when
the schema contains the field name `"consequence"` (so no token can
fail the filter lookup first) that error is precisely the
`MalformedConsequence` decoding error, even when the mismatched token's
consequence type is not missense and it would otherwise have been
discarded by the filter. -/
theorem c10_strict_decoding_before_filter (hdr : List String)
    (csqStr tok : String) (htok : tok ∈ pySplit csqStr ",")
    (hlen : (pySplit tok "|").length ≠ hdr.length) :
    (∃ e, variant_consequences csqStr hdr = .error e)
    ∧ ("consequence" ∈ hdr →
        variant_consequences csqStr hdr = .error .malformedConsequence) := by
  constructor
  · cases h : variant_consequences csqStr hdr with
    | ok l =>
      exfalso
      obtain ⟨d, hd⟩ := collect_ok_decode h htok
      simp only [decodeToken] at hd
      exact hlen (dictZip_ok_length hd)
    | error e => exact ⟨e, rfl⟩
  · intro hcons
    rcases collect_ok_or_malformed hcons (pySplit csqStr ",") with
      ⟨l, hok⟩ | herr
    · exfalso
      obtain ⟨d, hd⟩ := collect_ok_decode hok htok
      simp only [decodeToken] at hd
      exact hlen (dictZip_ok_length hd)
    · exact herr

/-- Witness for the amended C10: the truncated `stop_gained` token
(3 values against the 4-name schema, which names `consequence`) aborts
the whole variant with `MalformedConsequence`, although that token is
not a missense consequence. -/
theorem c10_strict_decoding_before_filter_witness :
    (∃ e, variant_consequences "x|missense_variant|ENSP1|45,x|stop_gained|ENSP2"
        ["allele", "consequence", "ensp", "protein_position"] = .error e)
    ∧ ("consequence" ∈ ["allele", "consequence", "ensp", "protein_position"] →
        variant_consequences "x|missense_variant|ENSP1|45,x|stop_gained|ENSP2"
            ["allele", "consequence", "ensp", "protein_position"]
          = .error .malformedConsequence) :=
  c10_strict_decoding_before_filter
    ["allele", "consequence", "ensp", "protein_position"]
    "x|missense_variant|ENSP1|45,x|stop_gained|ENSP2" "x|stop_gained|ENSP2"
    (by decide) (by decide)
